import Mathlib

/-!
Verification of the rule engine and AI decision engine of the Puli Meka
board game (a "tiger and goats" hunt game on a fixed 24-node graph).

The definitions below are a shallow embedding of the TypeScript sources:
`src/constants.ts` (topology), `src/services/gameLogic.ts` (move
generation, win evaluation, move simulation, heuristic evaluation,
placement heuristic, minimax search).  The gameLogic source contains two
variants of the module; where they differ (the zero-tiger guard in
`checkWinCondition`) both are embedded, the minimax variant under the
plain name and the earlier variant with a `V1` suffix.

A JavaScript `Record<number, Player>` board is embedded as an
association list `List (Nat × Player)`; JavaScript object key lookup,
`delete b[k]` and `b[k] = v` become `boardGet`, `boardDel` and
`boardSet`.  JavaScript objects cannot hold a key twice, so well-formed
boards satisfy `(b.map Prod.fst).Nodup`; that fact is an invariant
proved below (claim C3), not an assumption baked into the type.
Iteration order over object keys differs between the embedding
(insertion order) and JavaScript (ascending numeric); every quantity the
source derives from such an iteration (counts, sums, existence tests) is
order-independent, so the embedded functions compute the same values.
-/

inductive Player where
  | tiger : Player
  | goat : Player
deriving DecidableEq, Repr

/-- Board embedding of `Record<number, Player>`: occupied nodes only. -/
abbrev Board := List (Nat × Player)

/-- Embedding of JavaScript property lookup `board[n]` (first entry wins;
on well-formed boards keys are unique so this is the unique entry). -/
def boardGet : Board → Nat → Option Player
  | [], _ => none
  | (k, v) :: rest, n => if k = n then some v else boardGet rest n

/-- Embedding of `delete board[n]`: drop every entry with key `n` (on
well-formed boards there is at most one). -/
def boardDel (n : Nat) : Board → Board
  | [] => []
  | e :: rest => if e.1 = n then boardDel n rest else e :: boardDel n rest

/-- Embedding of `board[n] = p`: replace the entry if the key is present,
otherwise append a new entry. -/
def boardSet (n : Nat) (p : Player) (b : Board) : Board :=
  if b.any (fun e => e.1 == n) then
    b.map (fun e => if e.1 = n then (n, p) else e)
  else
    b ++ [(n, p)]

/-- From `src/types.ts`: total number of goats to be placed. -/
def GOATS_TOTAL : Nat := 18

/-- From `src/types.ts`: captures needed for a tiger win. -/
def GOATS_TO_WIN : Nat := 8

/-- Node identifiers of `NODES` from `src/constants.ts` (the screen
coordinates carried by each node are presentation-only and dropped). -/
def NODES : List Nat :=
  [0, 1, 2, 3, 4, 5, 6, 7, 8, 9, 10, 11, 12, 13, 14, 15, 16, 17, 18, 19,
   20, 21, 22, 23]

/-- The adjacency table of `src/constants.ts`, as key/value rows. -/
def ADJACENCY_TABLE : List (Nat × List Nat) :=
  [(0, [2, 3, 4]),
   (1, [2, 6]), (2, [1, 3, 0, 7]), (3, [2, 4, 0, 8]), (4, [3, 5, 0, 9]),
   (5, [4, 10]),
   (6, [1, 7]), (7, [6, 8, 2, 12]), (8, [7, 9, 3, 13]), (9, [8, 10, 4, 14]),
   (10, [5, 9]),
   (11, [12, 16]), (12, [11, 13, 7, 17]), (13, [12, 14, 8, 18]),
   (14, [13, 15, 9, 19]), (15, [14, 20]),
   (16, [11, 17]), (17, [16, 18, 12, 21]), (18, [17, 19, 13, 22]),
   (19, [18, 20, 14, 23]), (20, [15, 19]),
   (21, [17, 22]), (22, [18, 21, 23]), (23, [22, 19])]

/-- Lookup in a key/value table, empty list when absent. -/
def tableGet : List (Nat × List Nat) → Nat → List Nat
  | [], _ => []
  | (k, v) :: rest, n => if k = n then v else tableGet rest n

/-- Embedding of the expression `ADJACENCY[id] || []` used throughout the
source: the adjacency list of a node, empty for unknown ids. -/
def ADJACENCY (id : Nat) : List Nat :=
  tableGet ADJACENCY_TABLE id

/-- The 25 capture triples `[start, middle, end]` from `src/constants.ts`. -/
def JUMP_PATHS : List (Nat × Nat × Nat) :=
  [(0, 3, 8), (3, 8, 13), (8, 13, 18), (13, 18, 22),
   (0, 2, 7), (2, 7, 12), (7, 12, 17), (12, 17, 21),
   (0, 4, 9), (4, 9, 14), (9, 14, 19), (14, 19, 23),
   (1, 2, 3), (2, 3, 4), (3, 4, 5), (6, 7, 8), (7, 8, 9), (8, 9, 10),
   (11, 12, 13), (12, 13, 14), (13, 14, 15), (16, 17, 18), (17, 18, 19),
   (18, 19, 20), (21, 22, 23)]

/-- Initial board from `src/constants.ts`: four tigers at 0, 3, 8, 13. -/
def INITIAL_BOARD : Board :=
  [(0, Player.tiger), (3, Player.tiger), (8, Player.tiger), (13, Player.tiger)]

/-- Move representation of the AI module: the source field `from` is
absent for a goat placement.  The source field names `from` and `to` are
Lean keywords, hence `src?` and `dest`. -/
structure AIMove where
  src? : Option Nat
  dest : Nat
deriving DecidableEq, Repr

/-- Embedding of `getValidMoves` (identical in both source variants):
empty for a goat during the placement phase; otherwise the empty adjacent
nodes, and for a tiger additionally every jump landing reachable along a
jump path (tested in both orientations) whose middle holds a goat. -/
def getValidMoves (id : Nat) (turn : Player) (board : Board)
    (goatsPlaced : Nat) : List Nat :=
  if turn = Player.goat ∧ goatsPlaced < GOATS_TOTAL then []
  else
    let moves := (ADJACENCY id).filter (fun n => (boardGet board n).isNone)
    if turn = Player.tiger then
      moves ++ JUMP_PATHS.flatMap (fun p =>
        (if p.1 = id ∧ boardGet board p.2.1 = some Player.goat ∧
            boardGet board p.2.2 = none then [p.2.2] else []) ++
        (if p.2.2 = id ∧ boardGet board p.2.1 = some Player.goat ∧
            boardGet board p.1 = none then [p.1] else []))
    else moves

/-- Result record of `checkWinCondition`. -/
structure WinState where
  gameOver : Bool
  winner : Option Player
  reason : String
deriving DecidableEq, Repr

/-- Entries of the board held by tigers (`Object.entries(board).filter`). -/
def tigersOf (b : Board) : Board :=
  b.filter (fun e => e.2 == Player.tiger)

/-- Whether some tiger on the board has a legal move. -/
def canTigerMove (b : Board) : Bool :=
  (tigersOf b).any (fun e =>
    0 < (getValidMoves e.1 Player.tiger b GOATS_TOTAL).length)

/-- Embedding of `checkWinCondition` from the minimax variant of
`src/services/gameLogic.ts` (lines 244-270): capture threshold first,
then an explicit zero-tiger guard returning not-over, then the
trapped-tigers check.  The `turn` argument is accepted and unused,
exactly as in the source. -/
def checkWinCondition (b : Board) (goatsCaptured : Nat) (_turn : Player) :
    WinState :=
  if goatsCaptured ≥ GOATS_TO_WIN then
    ⟨true, some Player.tiger, "Tigers captured 8 goats!"⟩
  else if tigersOf b = [] then ⟨false, none, ""⟩
  else if ¬ canTigerMove b then ⟨true, some Player.goat, "Tigers are trapped!"⟩
  else ⟨false, none, ""⟩

/-- Embedding of `checkWinCondition` from the earlier variant of
`src/services/gameLogic.ts` (lines 34-56), which has no zero-tiger
guard: with no tigers on the board, `tigers.some(...)` is false and the
function reports a goat win. -/
def checkWinConditionV1 (b : Board) (goatsCaptured : Nat) (_turn : Player) :
    WinState :=
  if goatsCaptured ≥ GOATS_TO_WIN then
    ⟨true, some Player.tiger, "Tigers captured 8 goats!"⟩
  else if ¬ canTigerMove b then ⟨true, some Player.goat, "Tigers are trapped!"⟩
  else ⟨false, none, ""⟩

/-- Embedding of `simulateMove` (gameLogic lines 503-521): delete the
source entry when present, write the mover at the destination, and for a
tiger slide whose endpoints match a jump path whose middle (on the
updated board) holds a goat, delete that goat and increment the capture
count. -/
def simulateMove (board : Board) (move : AIMove) (role : Player)
    (currentCaptured : Nat) : Board × Nat :=
  let b1 := match move.src? with
    | some f => boardDel f board
    | none => board
  let b2 := boardSet move.dest role b1
  match move.src? with
  | some f =>
    if role = Player.tiger then
      match JUMP_PATHS.find? (fun p =>
          (p.1 == f && p.2.2 == move.dest) || (p.2.2 == f && p.1 == move.dest)) with
      | some p =>
        if boardGet b2 p.2.1 == some Player.goat then
          (boardDel p.2.1 b2, currentCaptured + 1)
        else (b2, currentCaptured)
      | none => (b2, currentCaptured)
    else (b2, currentCaptured)
  | none => (b2, currentCaptured)

/-- Embedding of `getAllPossibleMoves` (gameLogic lines 315-336): one
placement per empty node while the goat side is still placing, otherwise
every legal destination of every piece of the given role. -/
def getAllPossibleMoves (board : Board) (role : Player) (goatsPlaced : Nat) :
    List AIMove :=
  if role = Player.goat ∧ goatsPlaced < GOATS_TOTAL then
    (NODES.filter (fun id => (boardGet board id).isNone)).map
      (fun id => ⟨none, id⟩)
  else
    ((board.filter (fun e => e.2 == role)).map Prod.fst).flatMap (fun f =>
      (getValidMoves f role board goatsPlaced).map (fun t => ⟨some f, t⟩))

/-- Embedding of `isReverseMove` (gameLogic lines 498-501): true exactly
when both moves have a source and the candidate undoes the previous move. -/
def isReverseMove (curr prev : AIMove) : Bool :=
  match curr.src?, prev.src? with
  | some cf, some pf => cf == prev.dest && curr.dest == pf
  | _, _ => false

/-- The guard `previousMove && isReverseMove(move, previousMove)`. -/
def isRevOf (prev : Option AIMove) (m : AIMove) : Bool :=
  match prev with
  | none => false
  | some p => isReverseMove m p

/-- Embedding of `isJump` (gameLogic lines 523-526): whether the move
endpoints match the outer nodes of some jump path, in either orientation
(the board argument is accepted and unused, as in the source). -/
def isJump (_board : Board) (move : AIMove) : Bool :=
  match move.src? with
  | none => false
  | some f =>
    (JUMP_PATHS.find? (fun p =>
      (p.1 == f && p.2.2 == move.dest) || (p.2.2 == f && p.1 == move.dest))).isSome

/-- The central weighting inside `sortMovesForPruning`. -/
def centerScore (id : Nat) : Nat :=
  if id ∈ [12, 13, 14, 8] then 2 else if id ∈ [2, 3, 4, 18] then 1 else 0

/-- Embedding of `sortMovesForPruning` (gameLogic lines 528-541): a stable
sort realizing the source comparator, captures first for the tiger role,
then descending central weight of the destination. -/
def sortMovesForPruning (moves : List AIMove) (board : Board) (role : Player) :
    List AIMove :=
  moves.mergeSort (fun a b =>
    let ja := role = Player.tiger && isJump board a
    let jb := role = Player.tiger && isJump board b
    if ja = jb then centerScore b.dest ≤ centerScore a.dest else ja)

/-- Running maximum where `none` stands for the JS `-Infinity` initial
value of `maxEval` and `alpha`. -/
def amax (a : Option Int) (x : Int) : Option Int :=
  match a with
  | none => some x
  | some a0 => some (max a0 x)

/-- Running minimum where `none` stands for the JS `+Infinity` initial
value of `minEval` and `beta`. -/
def bmin (b : Option Int) (x : Int) : Option Int :=
  match b with
  | none => some x
  | some b0 => some (min b0 x)

/-- The pruning test `beta <= alpha`; false whenever either side is still
at its infinite initial value. -/
def pruneLe (beta alpha : Option Int) : Bool :=
  match beta, alpha with
  | some b0, some a0 => b0 ≤ a0
  | _, _ => false

/-- The maximizing ply loop of `minimax` (gameLogic lines 442-467).  A
candidate reversing the previous move is skipped when `allowSkip` holds
(the source computes it once per ply as `moves.length > 1`); every other
candidate is evaluated through `f`, which receives the current `alpha`
and `beta` exactly as the source passes the mutated `alpha` into the
recursive call; the loop stops early once `beta <= alpha`.  The result is
`none` exactly when no candidate was evaluated (`maxEval` still
`-Infinity`), the case in which the source falls back to `-10000`. -/
def maxLoop (f : AIMove → Option Int → Option Int → Int)
    (prev : Option AIMove) (allowSkip : Bool) :
    List AIMove → Option Int → Option Int → Option Int → Option Int
  | [], maxEval, _, _ => maxEval
  | m :: rest, maxEval, alpha, beta =>
    if allowSkip && isRevOf prev m then
      maxLoop f prev allowSkip rest maxEval alpha beta
    else
      let ev := f m alpha beta
      let maxEval1 := amax maxEval ev
      let alpha1 := amax alpha ev
      if pruneLe beta alpha1 then maxEval1
      else maxLoop f prev allowSkip rest maxEval1 alpha1 beta

/-- The minimizing ply loop of `minimax` (gameLogic lines 468-493),
symmetric to `maxLoop`; `none` stands for `minEval` still `+Infinity`,
the case in which the source falls back to `10000`. -/
def minLoop (f : AIMove → Option Int → Option Int → Int)
    (prev : Option AIMove) (allowSkip : Bool) :
    List AIMove → Option Int → Option Int → Option Int → Option Int
  | [], minEval, _, _ => minEval
  | m :: rest, minEval, alpha, beta =>
    if allowSkip && isRevOf prev m then
      minLoop f prev allowSkip rest minEval alpha beta
    else
      let ev := f m alpha beta
      let minEval1 := bmin minEval ev
      let beta1 := bmin beta ev
      if pruneLe beta1 alpha then minEval1
      else minLoop f prev allowSkip rest minEval1 alpha beta1

/-- The opposite role (`aiRole === 'tiger' ? 'goat' : 'tiger'`). -/
def otherPlayer (p : Player) : Player :=
  match p with
  | Player.tiger => Player.goat
  | Player.goat => Player.tiger

/-- The placed-count update passed into every recursive minimax call:
`goatsPlaced + (turn === 'goat' && move.from === undefined ? 1 : 0)`. -/
def placedAfter (turn : Player) (m : AIMove) (goatsPlaced : Nat) : Nat :=
  goatsPlaced + (if turn = Player.goat ∧ m.src? = none then 1 else 0)

/-- Number of index pairs i < j in the list whose elements are
graph-adjacent: the tiger coordination double loop of `evaluatePosition`
(gameLogic lines 586-592). -/
def adjacentPairCount : List Nat → Nat
  | [] => 0
  | t :: rest =>
    (rest.filter (fun u => (ADJACENCY t).contains u)).length +
      adjacentPairCount rest

/-- Embedding of `evaluatePosition` (gameLogic lines 545-624).  The score
is signed toward `aiRole`: the tiger branch combines the capture score
with threat, trap, mobility and coordination terms; the goat branch
discards the capture score accumulated before the branch and rebuilds the
score from the goat perspective, counting goat-goat adjacencies once per
direction and rewarding the five central nodes. -/
def evaluatePosition (board : Board) (aiRole : Player)
    (goatsCaptured goatsPlaced : Nat) : Int :=
  let tigers := (board.filter (fun e => e.2 == Player.tiger)).map Prod.fst
  let goats := (board.filter (fun e => e.2 == Player.goat)).map Prod.fst
  let tigerMobility : Nat :=
    (tigers.map (fun t =>
      (getValidMoves t Player.tiger board goatsPlaced).length)).sum
  let trappedTigers : Nat :=
    (tigers.filter (fun t =>
      (getValidMoves t Player.tiger board goatsPlaced).isEmpty)).length
  let captureOpportunities : Nat :=
    (tigers.map (fun t =>
      ((getValidMoves t Player.tiger board goatsPlaced).filter (fun dst =>
        JUMP_PATHS.any (fun p =>
          (p.1 == t && p.2.2 == dst) || (p.2.2 == t && p.1 == dst)))).length)).sum
  if aiRole = Player.tiger then
    (goatsCaptured : Int) * 2000 + (if goatsCaptured ≥ 7 then 5000 else 0)
      + (captureOpportunities : Int) * 500 - (trappedTigers : Int) * 1500
      + (tigerMobility : Int) * 30 + (adjacentPairCount tigers : Int) * 60
  else
    -((goatsCaptured : Int) * 2500) + (trappedTigers : Int) * 1500
      - (tigerMobility : Int) * 50 - (captureOpportunities : Int) * 1000
      + ((goats.map (fun g =>
          ((ADJACENCY g).filter (fun n =>
            boardGet board n == some Player.goat)).length)).sum : Int) * 40
      + 70 * ((goats.filter (fun g => g ∈ [12, 13, 14, 8, 18])).length : Int)

/-- Embedding of `minimax` (gameLogic lines 408-494): terminal win check
first, heuristic score at depth 0, otherwise the sorted candidate list is
processed by the maximizing or minimizing ply loop, whose empty result is
replaced by the defensive fallbacks `-10000` and `10000`; an empty
candidate list short-circuits to a loss-style score for the side to move. -/
def minimax (depth : Nat) (board : Board) (alpha beta : Option Int)
    (isMaximizing : Bool) (aiRole : Player) (goatsPlaced goatsCaptured : Nat)
    (previousMove : Option AIMove) : Int :=
  let currentTurn := if isMaximizing then aiRole else otherPlayer aiRole
  let winState := checkWinCondition board goatsCaptured currentTurn
  if winState.gameOver then
    if winState.winner = some aiRole then 20000 + (depth : Int)
    else -20000 - (depth : Int)
  else
    match depth with
    | 0 => evaluatePosition board aiRole goatsCaptured goatsPlaced
    | d + 1 =>
      let moves := sortMovesForPruning
        (getAllPossibleMoves board currentTurn goatsPlaced) board currentTurn
      if moves = [] then (if currentTurn = aiRole then -20000 else 20000)
      else if isMaximizing then
        match maxLoop (fun m a b =>
            let sim := simulateMove board m currentTurn goatsCaptured
            minimax d sim.1 a b false aiRole
              (placedAfter currentTurn m goatsPlaced) sim.2 (some m))
          previousMove (decide (1 < moves.length)) moves none alpha beta with
        | none => -10000
        | some v => v
      else
        match minLoop (fun m a b =>
            let sim := simulateMove board m currentTurn goatsCaptured
            minimax d sim.1 a b true aiRole
              (placedAfter currentTurn m goatsPlaced) sim.2 (some m))
          previousMove (decide (1 < moves.length)) moves none alpha beta with
        | none => 10000
        | some v => v

/-- Embedding of `immediateDanger` inside `getBestPlacementGoat`
(gameLogic lines 639-651): the candidate node is the middle of a jump
path one of whose outer nodes holds a tiger while the other is empty. -/
def immediateDanger (board : Board) (nodeId : Nat) : Bool :=
  JUMP_PATHS.any (fun p =>
    p.2.1 == nodeId &&
      ((boardGet board p.1 == some Player.tiger &&
          (boardGet board p.2.2).isNone) ||
       (boardGet board p.2.2 == some Player.tiger &&
          (boardGet board p.1).isNone)))

/-- The candidate score of `getBestPlacementGoat` (gameLogic lines
634-681).  The `Math.random() * 10` perturbation is modelled by the
injectable `rand` argument sampled at the candidate node; the source
draws one sample per loop iteration and each empty node is visited once,
so indexing the samples by node id is equivalent. -/
def placementScore (board : Board) (rand : Nat → ℚ) (nodeId : Nat) : ℚ :=
  (if immediateDanger board nodeId then (-10000 : ℚ)
   else
     (((ADJACENCY nodeId).filter (fun n =>
         boardGet board n == some Player.tiger)).length : ℚ) * 200
       + (((ADJACENCY nodeId).filter (fun n =>
           boardGet board n == some Player.goat)).length : ℚ) * 50
       + (if nodeId ∈ [8, 12, 13, 14, 18] then (100 : ℚ) else 0)
       + (if nodeId ∈ [2, 3, 4, 7, 9] then (60 : ℚ) else 0))
    + rand nodeId

/-- One step of the strict running-argmax loop of `getBestPlacementGoat`:
`if (score > maxScore) { maxScore = score; bestNode = nodeId; }`, where
`none` stands for the initial `maxScore = -Infinity`. -/
def argmaxStep (f : Nat → ℚ) (acc : Option (Nat × ℚ)) (n : Nat) :
    Option (Nat × ℚ) :=
  match acc with
  | none => some (n, f n)
  | some best => if best.2 < f n then some (n, f n) else acc

/-- Embedding of `getBestPlacementGoat` (gameLogic lines 627-690),
returning the placement move for the empty node with the maximal
candidate score (first maximum wins, as the comparison is strict).  The
result is `none` exactly when no empty node exists, the case in which
the source returns the out-of-board marker `{ to: -1 }`. -/
def getBestPlacementGoat (board : Board) (rand : Nat → ℚ) : Option AIMove :=
  let emptyNodes := NODES.filter (fun id => (boardGet board id).isNone)
  (emptyNodes.foldl (argmaxStep (placementScore board rand)) none).map
    (fun best => ⟨none, best.1⟩)

/-- Game state as the core consumes it: board, side to move, goats placed
and goats captured (the presentation fields of the app state are out of
scope). -/
structure GState where
  board : Board
  turn : Player
  goatsPlaced : Nat
  goatsCaptured : Nat

/-- The initial game state of the app shell: tigers at their four start
nodes, goats to move first, nothing placed or captured. -/
def initialState : GState :=
  ⟨INITIAL_BOARD, Player.goat, 0, 0⟩

/-- One legal move applied to a game state, mirroring `executeMove` of the
app shell with the board and capture updates of `simulateMove`: either a
goat placement on an empty node while goats remain to be placed, or a
slide of an own piece to a destination produced by `getValidMoves`. -/
inductive Step : GState → GState → Prop where
  | place (s : GState) (node : Nat) (hturn : s.turn = Player.goat)
      (hplaced : s.goatsPlaced < GOATS_TOTAL)
      (hempty : boardGet s.board node = none) :
      Step s ⟨(simulateMove s.board ⟨none, node⟩ s.turn s.goatsCaptured).1,
              otherPlayer s.turn, s.goatsPlaced + 1, s.goatsCaptured⟩
  | slide (s : GState) (src dst : Nat)
      (hpiece : boardGet s.board src = some s.turn)
      (hdst : dst ∈ getValidMoves src s.turn s.board s.goatsPlaced) :
      Step s ⟨(simulateMove s.board ⟨some src, dst⟩ s.turn s.goatsCaptured).1,
              otherPlayer s.turn, s.goatsPlaced,
              (simulateMove s.board ⟨some src, dst⟩ s.turn s.goatsCaptured).2⟩

/-- States reachable from the initial position by repeatedly applying one
legal move. -/
inductive Reachable : GState → Prop where
  | init : Reachable initialState
  | step {s t : GState} : Reachable s → Step s t → Reachable t

/-- The goat-branch score formula exactly as the specification sentence
states it, with `connections` counting each unordered adjacent goat pair
once (`adjacentPairCount` counts index pairs i < j).  Written from the
spec wording, to be compared with `evaluatePosition`. -/
def evalGoatSpecClaimed (board : Board) (goatsCaptured goatsPlaced : Nat) :
    Int :=
  let tigers := (board.filter (fun e => e.2 == Player.tiger)).map Prod.fst
  let goats := (board.filter (fun e => e.2 == Player.goat)).map Prod.fst ;
  -((goatsCaptured : Int) * 2500)
    + ((tigers.filter (fun t =>
        (getValidMoves t Player.tiger board goatsPlaced).isEmpty)).length : Int)
        * 1500
    - ((tigers.map (fun t =>
        (getValidMoves t Player.tiger board goatsPlaced).length)).sum : Int)
        * 50
    - ((tigers.map (fun t =>
        ((getValidMoves t Player.tiger board goatsPlaced).filter (fun dst =>
          JUMP_PATHS.any (fun p =>
            (p.1 == t && p.2.2 == dst) ||
              (p.2.2 == t && p.1 == dst)))).length)).sum : Int) * 1000
    + (adjacentPairCount goats : Int) * 40
    + 70 * ((goats.filter (fun g => g ∈ [12, 13, 14, 8, 18])).length : Int)

/-- The amended goat-branch score formula: identical to the claimed one
except that `connections` is counted once per direction, as the source
does (each unordered adjacent goat pair contributes twice).  Written from
the amended spec wording, to be compared with `evaluatePosition`. -/
def evalGoatSpecAmended (board : Board) (goatsCaptured goatsPlaced : Nat) :
    Int :=
  let tigers := (board.filter (fun e => e.2 == Player.tiger)).map Prod.fst
  let goats := (board.filter (fun e => e.2 == Player.goat)).map Prod.fst ;
  -((goatsCaptured : Int) * 2500)
    + ((tigers.filter (fun t =>
        (getValidMoves t Player.tiger board goatsPlaced).isEmpty)).length : Int)
        * 1500
    - ((tigers.map (fun t =>
        (getValidMoves t Player.tiger board goatsPlaced).length)).sum : Int)
        * 50
    - ((tigers.map (fun t =>
        ((getValidMoves t Player.tiger board goatsPlaced).filter (fun dst =>
          JUMP_PATHS.any (fun p =>
            (p.1 == t && p.2.2 == dst) ||
              (p.2.2 == t && p.1 == dst)))).length)).sum : Int) * 1000
    + (((goats.map (fun g =>
        ((ADJACENCY g).filter (fun n =>
          boardGet board n == some Player.goat)).length)).sum : Nat) : Int) * 40
    + 70 * ((goats.filter (fun g => g ∈ [12, 13, 14, 8, 18])).length : Int)

/-- Keys of an association-list board are pairwise distinct: the
JavaScript object invariant. -/
def keysNodup (b : Board) : Prop :=
  (b.map Prod.fst).Nodup

theorem boardGet_boardDel_self (n : Nat) (b : Board) :
    boardGet (boardDel n b) n = none := by
  induction b with
  | nil => rfl
  | cons e rest ih =>
    by_cases h : e.1 = n
    · simp [boardDel, h, ih]
    · simp [boardDel, boardGet, h, ih]

theorem boardGet_boardDel_ne (m n : Nat) (h : m ≠ n) (b : Board) :
    boardGet (boardDel n b) m = boardGet b m := by
  have h1 : ¬ (n = m) := fun hh => h hh.symm
  induction b with
  | nil => rfl
  | cons e rest ih =>
    by_cases hk : e.1 = n
    · simp [boardDel, boardGet, hk, h1, ih]
    · by_cases hm : e.1 = m
      · simp [boardDel, boardGet, hk, hm, h]
      · simp [boardDel, boardGet, hk, hm, ih]

theorem boardGet_eq_none_iff (b : Board) (n : Nat) :
    boardGet b n = none ↔ n ∉ b.map Prod.fst := by
  induction b with
  | nil => simp [boardGet]
  | cons e rest ih =>
    by_cases h : e.1 = n
    · simp [boardGet, h]
    · simp [boardGet, h, ih, Ne.symm h]

theorem any_key_eq_false (b : Board) (n : Nat) (h : boardGet b n = none) :
    b.any (fun e => e.1 == n) = false := by
  induction b with
  | nil => rfl
  | cons e rest ih =>
    simp only [boardGet] at h
    by_cases hk : e.1 = n
    · rw [if_pos hk] at h; cases h
    · rw [if_neg hk] at h
      simp [List.any_cons, hk, ih h]

theorem boardSet_of_none (n : Nat) (p : Player) (b : Board)
    (h : boardGet b n = none) : boardSet n p b = b ++ [(n, p)] := by
  unfold boardSet
  rw [any_key_eq_false b n h]
  simp

theorem boardGet_append_of_none (b l : Board) (m : Nat)
    (h : boardGet b m = none) : boardGet (b ++ l) m = boardGet l m := by
  induction b with
  | nil => rfl
  | cons e rest ih =>
    simp only [boardGet] at h ⊢
    by_cases hk : e.1 = m
    · rw [if_pos hk] at h; cases h
    · rw [if_neg hk] at h
      simp only [List.cons_append, boardGet, if_neg hk]
      exact ih h

theorem boardGet_append_of_some (b l : Board) (m : Nat) (v : Player)
    (h : boardGet b m = some v) : boardGet (b ++ l) m = some v := by
  induction b with
  | nil => cases h
  | cons e rest ih =>
    simp only [boardGet] at h ⊢
    by_cases hk : e.1 = m
    · rw [if_pos hk] at h
      simp only [List.cons_append, boardGet, if_pos hk]
      exact h
    · rw [if_neg hk] at h
      simp only [List.cons_append, boardGet, if_neg hk]
      exact ih h

theorem boardGet_mapset_ne (m n : Nat) (h : m ≠ n) (p : Player) (b : Board) :
    boardGet (b.map (fun e => if e.1 = n then (n, p) else e)) m =
      boardGet b m := by
  have h1 : ¬ (n = m) := fun hh => h hh.symm
  induction b with
  | nil => rfl
  | cons e rest ih =>
    obtain ⟨k, v⟩ := e
    simp only [List.map_cons]
    by_cases hk : k = n
    · rw [if_pos hk]
      simp [boardGet, h1, ih, hk]
    · rw [if_neg hk]
      by_cases hm : k = m
      · simp [boardGet, hm]
      · simp [boardGet, hm, ih]

theorem boardGet_boardSet_ne (m n : Nat) (h : m ≠ n) (p : Player) (b : Board) :
    boardGet (boardSet n p b) m = boardGet b m := by
  unfold boardSet
  by_cases hany : b.any (fun e => e.1 == n) = true
  · rw [if_pos hany]
    exact boardGet_mapset_ne m n h p b
  · rw [if_neg hany]
    cases hv : boardGet b m with
    | none =>
      rw [boardGet_append_of_none b _ m hv]
      simp [boardGet, Ne.symm h]
    | some v => exact boardGet_append_of_some b _ m v hv

theorem boardGet_mapset_self (n : Nat) (p : Player) (b : Board)
    (hany : b.any (fun e => e.1 == n) = true) :
    boardGet (b.map (fun e => if e.1 = n then (n, p) else e)) n = some p := by
  induction b with
  | nil => simp at hany
  | cons e rest ih =>
    obtain ⟨k, v⟩ := e
    simp only [List.any_cons, Bool.or_eq_true, beq_iff_eq] at hany
    simp only [List.map_cons]
    by_cases hk : k = n
    · rw [if_pos hk]
      simp [boardGet]
    · rw [if_neg hk]
      have hrest : rest.any (fun e => e.1 == n) = true := by
        rcases hany with h1 | h2
        · exact absurd h1 hk
        · exact h2
      simp [boardGet, hk, ih hrest]

theorem boardGet_boardSet_self (n : Nat) (p : Player) (b : Board) :
    boardGet (boardSet n p b) n = some p := by
  unfold boardSet
  by_cases hany : b.any (fun e => e.1 == n) = true
  · rw [if_pos hany]
    exact boardGet_mapset_self n p b hany
  · rw [if_neg hany]
    have hnone : boardGet b n = none := by
      by_contra hc
      cases hv : boardGet b n with
      | none => exact hc hv
      | some v =>
        have hmem : n ∈ b.map Prod.fst := by
          by_contra hmem
          rw [(boardGet_eq_none_iff b n).mpr hmem] at hv
          cases hv
        have : ∃ e ∈ b, e.1 = n := by
          simpa [List.mem_map] using hmem
        obtain ⟨e, he, hen⟩ := this
        have : b.any (fun e => e.1 == n) = true := by
          simp only [List.any_eq_true, beq_iff_eq]
          exact ⟨e, he, hen⟩
        exact hany this
    rw [boardGet_append_of_none b _ n hnone]
    simp [boardGet]

theorem jumpPaths_middle_ne : ∀ p ∈ JUMP_PATHS,
    p.1 ≠ p.2.2 ∧ p.2.1 ≠ p.1 ∧ p.2.1 ≠ p.2.2 := by decide

theorem jumpPaths_ends_unique : ∀ p ∈ JUMP_PATHS, ∀ q ∈ JUMP_PATHS,
    ((p.1 = q.1 ∧ p.2.2 = q.2.2) ∨ (p.1 = q.2.2 ∧ p.2.2 = q.1)) → p = q := by
  decide

theorem jumpPaths_ends_not_adjacent : ∀ p ∈ JUMP_PATHS,
    p.2.2 ∉ ADJACENCY p.1 ∧ p.1 ∉ ADJACENCY p.2.2 := by decide

theorem jumpPaths_pairwise_ends : JUMP_PATHS.Pairwise (fun p q =>
    ¬((p.1 = q.1 ∧ p.2.2 = q.2.2) ∨ (p.1 = q.2.2 ∧ p.2.2 = q.1))) := by decide

theorem tableGet_nodup (T : List (Nat × List Nat))
    (hT : ∀ e ∈ T, e.2.Nodup) (id : Nat) : (tableGet T id).Nodup := by
  induction T with
  | nil => exact List.nodup_nil
  | cons e rest ih =>
    obtain ⟨k, v⟩ := e
    by_cases hk : k = id
    · simpa [tableGet, hk] using hT (k, v) (by simp)
    · simp only [tableGet, if_neg hk]
      exact ih (fun x hx => hT x (List.mem_cons_of_mem _ hx))

theorem adjacency_nodup (id : Nat) : (ADJACENCY id).Nodup :=
  tableGet_nodup ADJACENCY_TABLE (by decide) id

/-- C9: for every node id, every board and every placed count strictly
below 18, `getValidMoves` called with the goat role returns the empty
list of destinations. -/
theorem claim_C9_goat_placement_empty (id : Nat) (board : Board)
    (goatsPlaced : Nat) (h : goatsPlaced < 18) :
    getValidMoves id Player.goat board goatsPlaced = [] := by
  unfold getValidMoves
  rw [if_pos ⟨rfl, h⟩]

theorem claim_C9_witness : getValidMoves 5 Player.goat [] 3 = [] :=
  claim_C9_goat_placement_empty 5 [] 3 (by decide)

/-- C2: whenever the captured count has reached 8, both variants of
`checkWinCondition` report the game over with the tiger side as winner,
for every board and side to move. -/
theorem claim_C2_capture_threshold_win (board : Board) (captured : Nat)
    (turn : Player) (h : 8 ≤ captured) :
    checkWinCondition board captured turn =
      ⟨true, some Player.tiger, "Tigers captured 8 goats!"⟩ ∧
    checkWinConditionV1 board captured turn =
      ⟨true, some Player.tiger, "Tigers captured 8 goats!"⟩ := by
  constructor
  · unfold checkWinCondition
    rw [if_pos (show captured ≥ GOATS_TO_WIN from h)]
  · unfold checkWinConditionV1
    rw [if_pos (show captured ≥ GOATS_TO_WIN from h)]

theorem claim_C2_witness :
    checkWinCondition [] 9 Player.goat =
      ⟨true, some Player.tiger, "Tigers captured 8 goats!"⟩ ∧
    checkWinConditionV1 [] 9 Player.goat =
      ⟨true, some Player.tiger, "Tigers captured 8 goats!"⟩ :=
  claim_C2_capture_threshold_win [] 9 Player.goat (by decide)

/-- C4: along every jump path, when a tiger stands at one outer node, a
goat occupies the middle and the opposite outer node is empty,
`getValidMoves` for the occupied outer node contains the opposite outer
node; this holds in both orientations of the triple, for every board and
placed count. -/
theorem claim_C4_jump_both_orientations (board : Board) (goatsPlaced : Nat)
    (p : Nat × Nat × Nat) (hp : p ∈ JUMP_PATHS) :
    (boardGet board p.1 = some Player.tiger →
      boardGet board p.2.1 = some Player.goat →
      boardGet board p.2.2 = none →
      p.2.2 ∈ getValidMoves p.1 Player.tiger board goatsPlaced) ∧
    (boardGet board p.2.2 = some Player.tiger →
      boardGet board p.2.1 = some Player.goat →
      boardGet board p.1 = none →
      p.1 ∈ getValidMoves p.2.2 Player.tiger board goatsPlaced) := by
  constructor
  · intro _ hmid hend
    unfold getValidMoves
    rw [if_neg (by simp)]
    simp only [if_pos rfl]
    refine List.mem_append.mpr (Or.inr ?_)
    refine List.mem_flatMap.mpr ⟨p, hp, ?_⟩
    refine List.mem_append.mpr (Or.inl ?_)
    rw [if_pos ⟨rfl, hmid, hend⟩]
    exact List.mem_singleton.mpr rfl
  · intro _ hmid hstart
    unfold getValidMoves
    rw [if_neg (by simp)]
    simp only [if_pos rfl]
    refine List.mem_append.mpr (Or.inr ?_)
    refine List.mem_flatMap.mpr ⟨p, hp, ?_⟩
    refine List.mem_append.mpr (Or.inr ?_)
    rw [if_pos ⟨rfl, hmid, hstart⟩]
    exact List.mem_singleton.mpr rfl

theorem claim_C4_witness :
    (18 : Nat) ∈ getValidMoves 8 Player.tiger
      [(8, Player.tiger), (13, Player.goat)] 18 :=
  (claim_C4_jump_both_orientations
    [(8, Player.tiger), (13, Player.goat)] 18 (8, 13, 18) (by decide)).1
    rfl rfl rfl

/-- C5 (amended): the minimax-variant `checkWinCondition`, which carries
the explicit zero-tiger guard, returns not-over for every board holding
zero tigers when the captured count is below 8; the earlier variant
instead reports a goat win on such boards (see the counterexample). -/
theorem claim_C5_zero_tigers_not_over (board : Board) (captured : Nat)
    (turn : Player) (hc : captured < 8) (ht : tigersOf board = []) :
    checkWinCondition board captured turn = ⟨false, none, ""⟩ := by
  unfold checkWinCondition
  rw [if_neg (show ¬ captured ≥ GOATS_TO_WIN from Nat.not_le.mpr hc),
    if_pos ht]

theorem claim_C5_witness :
    checkWinCondition [] 0 Player.goat = ⟨false, none, ""⟩ :=
  claim_C5_zero_tigers_not_over [] 0 Player.goat (by decide) rfl

/-- C5 counterexample: on the empty board (zero tigers) with zero
captures, the earlier variant of `checkWinCondition` reports a goat win
rather than the not-over result the claim requires. -/
theorem claim_C5_counterexample :
    tigersOf ([] : Board) = [] ∧ (0 : Nat) < 8 ∧
    checkWinConditionV1 [] 0 Player.goat =
      ⟨true, some Player.goat, "Tigers are trapped!"⟩ := by
  refine ⟨rfl, by decide, rfl⟩

/-- C6 counterexample: with goats on the adjacent nodes 2 and 3 and
nothing else, `evaluatePosition` for the goat role returns 80 (the single
adjacent goat pair counted once per direction, 2 x 40), while the claimed
formula with each unordered pair counted once yields 40. -/
theorem claim_C6_counterexample :
    evaluatePosition [(2, Player.goat), (3, Player.goat)] Player.goat 0 2 ≠
      evalGoatSpecClaimed [(2, Player.goat), (3, Player.goat)] 0 2 ∧
    evaluatePosition [(2, Player.goat), (3, Player.goat)] Player.goat 0 2
      = 80 ∧
    evalGoatSpecClaimed [(2, Player.goat), (3, Player.goat)] 0 2 = 40 := by
  refine ⟨by decide, by decide, by decide⟩

/-- C6 (amended): for every board, captured count and placed count, the
goat-role heuristic score equals the claimed linear combination with
`connections` counting goat-goat adjacencies once per direction (each
unordered adjacent pair twice). -/
theorem claim_C6_goat_score_formula (board : Board)
    (goatsCaptured goatsPlaced : Nat) :
    evaluatePosition board Player.goat goatsCaptured goatsPlaced =
      evalGoatSpecAmended board goatsCaptured goatsPlaced := rfl

theorem find_jump_some (f t : Nat) (p : Nat × Nat × Nat) (hp : p ∈ JUMP_PATHS)
    (hm : (p.1 = f ∧ p.2.2 = t) ∨ (p.2.2 = f ∧ p.1 = t)) :
    JUMP_PATHS.find? (fun q =>
      (q.1 == f && q.2.2 == t) || (q.2.2 == f && q.1 == t)) = some p := by
  have hpred : ((fun q : Nat × Nat × Nat =>
      (q.1 == f && q.2.2 == t) || (q.2.2 == f && q.1 == t)) p) = true := by
    rcases hm with ⟨h1, h2⟩ | ⟨h1, h2⟩ <;> simp [h1, h2]
  have hex : (JUMP_PATHS.find? (fun q =>
      (q.1 == f && q.2.2 == t) || (q.2.2 == f && q.1 == t))).isSome :=
    List.find?_isSome.mpr ⟨p, hp, hpred⟩
  obtain ⟨q, hq⟩ := Option.isSome_iff_exists.mp hex
  have hqmem := List.mem_of_find?_eq_some hq
  have hqpred := List.find?_some hq
  simp only [Bool.or_eq_true, Bool.and_eq_true, beq_iff_eq] at hqpred
  have heq : q = p := by
    apply jumpPaths_ends_unique q hqmem p hp
    rcases hm with ⟨h1, h2⟩ | ⟨h1, h2⟩ <;>
      rcases hqpred with ⟨g1, g2⟩ | ⟨g1, g2⟩
    · exact Or.inl ⟨g1.trans h1.symm, g2.trans h2.symm⟩
    · exact Or.inr ⟨g2.trans h2.symm, g1.trans h1.symm⟩
    · exact Or.inr ⟨g1.trans h1.symm, g2.trans h2.symm⟩
    · exact Or.inl ⟨g2.trans h2.symm, g1.trans h1.symm⟩
  rw [hq, heq]

/-- C1: `simulateMove` never decreases the captured count; it returns the
input count plus one exactly when the mover is the tiger role, the move
has a source, the (source, destination) pair matches a jump path in one
of its two orientations, and the middle node of that path holds a goat on
the input board; in every other case the count is returned unchanged. -/
theorem claim_C1_capture_count (board : Board) (move : AIMove)
    (role : Player) (captured : Nat) :
    captured ≤ (simulateMove board move role captured).2 ∧
    ((simulateMove board move role captured).2 = captured + 1 ↔
      (role = Player.tiger ∧ ∃ f, move.src? = some f ∧
        ∃ p ∈ JUMP_PATHS,
          ((p.1 = f ∧ p.2.2 = move.dest) ∨ (p.2.2 = f ∧ p.1 = move.dest)) ∧
          boardGet board p.2.1 = some Player.goat)) ∧
    (¬(role = Player.tiger ∧ ∃ f, move.src? = some f ∧
        ∃ p ∈ JUMP_PATHS,
          ((p.1 = f ∧ p.2.2 = move.dest) ∨ (p.2.2 = f ∧ p.1 = move.dest)) ∧
          boardGet board p.2.1 = some Player.goat) →
      (simulateMove board move role captured).2 = captured) := by
  cases hsrc : move.src? with
  | none =>
    have hres : (simulateMove board move role captured).2 = captured := by
      unfold simulateMove
      rw [hsrc]
    refine ⟨hres.ge, ?_, fun _ => hres⟩
    rw [hres]
    constructor
    · intro hfalse
      exact absurd hfalse (by omega)
    · rintro ⟨-, f', hf', -⟩
      cases hf'
  | some f =>
    cases role with
    | goat =>
      have hres : (simulateMove board move Player.goat captured).2
          = captured := by
        unfold simulateMove
        rw [hsrc]
        simp
      refine ⟨hres.ge, ?_, fun _ => hres⟩
      rw [hres]
      constructor
      · intro hfalse
        exact absurd hfalse (by omega)
      · rintro ⟨hrole, -⟩
        exact absurd hrole (by decide)
    | tiger =>
      cases hfind : JUMP_PATHS.find? (fun q =>
          (q.1 == f && q.2.2 == move.dest) ||
            (q.2.2 == f && q.1 == move.dest)) with
      | none =>
        have hres : (simulateMove board move Player.tiger captured).2
            = captured := by
          unfold simulateMove
          rw [hsrc]
          simp [hfind]
        refine ⟨hres.ge, ?_, fun _ => hres⟩
        rw [hres]
        constructor
        · intro hfalse
          exact absurd hfalse (by omega)
        · rintro ⟨-, f', hf', p, hpmem, hmatch, -⟩
          have hff : f' = f := (Option.some.inj hf').symm
          rw [hff] at hmatch
          have hcontr := find_jump_some f move.dest p hpmem hmatch
          rw [hfind] at hcontr
          cases hcontr
      | some q =>
        have hqmem := List.mem_of_find?_eq_some hfind
        have hqpred := List.find?_some hfind
        simp only [Bool.or_eq_true, Bool.and_eq_true, beq_iff_eq] at hqpred
        have hmidne := jumpPaths_middle_ne q hqmem
        have hmid_f : q.2.1 ≠ f := by
          rcases hqpred with ⟨g1, -⟩ | ⟨g1, -⟩
          · rw [← g1]; exact hmidne.2.1
          · rw [← g1]; exact hmidne.2.2
        have hmid_t : q.2.1 ≠ move.dest := by
          rcases hqpred with ⟨-, g2⟩ | ⟨-, g2⟩
          · rw [← g2]; exact hmidne.2.2
          · rw [← g2]; exact hmidne.2.1
        have hb2 : boardGet
            (boardSet move.dest Player.tiger (boardDel f board)) q.2.1 =
              boardGet board q.2.1 := by
          rw [boardGet_boardSet_ne q.2.1 move.dest hmid_t,
            boardGet_boardDel_ne q.2.1 f hmid_f]
        by_cases hmid : boardGet board q.2.1 = some Player.goat
        · have hres : (simulateMove board move Player.tiger captured).2
              = captured + 1 := by
            unfold simulateMove
            rw [hsrc]
            simp [hfind, hb2, hmid]
          refine ⟨by rw [hres]; exact Nat.le_succ captured, ?_, ?_⟩
          · rw [hres]
            constructor
            · intro _
              exact ⟨rfl, f, rfl, q, hqmem, hqpred, hmid⟩
            · intro _
              rfl
          · intro hnot
            exact absurd ⟨rfl, f, rfl, q, hqmem, hqpred, hmid⟩ hnot
        · have hres : (simulateMove board move Player.tiger captured).2
              = captured := by
            unfold simulateMove
            rw [hsrc]
            simp [hfind, hb2, hmid]
          refine ⟨hres.ge, ?_, fun _ => hres⟩
          rw [hres]
          constructor
          · intro hfalse
            exact absurd hfalse (by omega)
          · rintro ⟨-, f', hf', p, hpmem, hmatch, hpmid⟩
            have hff : f' = f := (Option.some.inj hf').symm
            rw [hff] at hmatch
            have heqp := find_jump_some f move.dest p hpmem hmatch
            rw [hfind] at heqp
            obtain rfl : q = p := Option.some.inj heqp
            exact absurd hpmid hmid

theorem claim_C1_witness :
    (simulateMove [(3, Player.tiger), (8, Player.goat)] ⟨some 3, 13⟩
      Player.tiger 0).2 = 0 + 1 :=
  (claim_C1_capture_count [(3, Player.tiger), (8, Player.goat)] ⟨some 3, 13⟩
    Player.tiger 0).2.1.mpr
    ⟨rfl, 3, rfl, (3, 8, 13), by decide, Or.inl ⟨rfl, rfl⟩, rfl⟩

theorem boardDel_sublist (n : Nat) (b : Board) :
    List.Sublist (boardDel n b) b := by
  induction b with
  | nil => simp [boardDel]
  | cons e rest ih =>
    by_cases hk : e.1 = n
    · simp only [boardDel, if_pos hk]
      exact ih.cons e
    · simp only [boardDel, if_neg hk]
      exact ih.cons₂ e

theorem keysNodup_boardDel (n : Nat) (b : Board) (h : keysNodup b) :
    keysNodup (boardDel n b) :=
  List.Nodup.sublist ((boardDel_sublist n b).map Prod.fst) h

theorem keysNodup_append_single (b : Board) (n : Nat) (p : Player)
    (hb : keysNodup b) (hn : boardGet b n = none) :
    keysNodup (b ++ [(n, p)]) := by
  unfold keysNodup at hb ⊢
  rw [List.map_append]
  refine List.Nodup.append hb (by simp) ?_
  intro x hx hmem
  simp only [List.map_cons, List.map_nil, List.mem_singleton] at hmem
  rw [hmem] at hx
  exact (boardGet_eq_none_iff b n).mp hn hx

theorem boardDel_eq_of_none (n : Nat) (b : Board) (h : boardGet b n = none) :
    boardDel n b = b := by
  induction b with
  | nil => rfl
  | cons e rest ih =>
    simp only [boardGet] at h
    by_cases hk : e.1 = n
    · rw [if_pos hk] at h; cases h
    · rw [if_neg hk] at h
      simp only [boardDel, if_neg hk, ih h]

theorem tigersOf_boardDel_some (n : Nat) (v : Player) (b : Board)
    (hb : keysNodup b) (hv : boardGet b n = some v) :
    (tigersOf b).length = (tigersOf (boardDel n b)).length +
      (if v = Player.tiger then 1 else 0) := by
  induction b with
  | nil => cases hv
  | cons e rest ih =>
    obtain ⟨k, w⟩ := e
    simp only [keysNodup, List.map_cons, List.nodup_cons] at hb
    simp only [boardGet] at hv
    by_cases hk : k = n
    · rw [if_pos hk] at hv
      have hwv : v = w := (Option.some.inj hv).symm
      subst hwv
      have hrest : boardDel n rest = rest := by
        apply boardDel_eq_of_none
        apply (boardGet_eq_none_iff rest n).mpr
        rw [← hk]
        exact hb.1
      simp only [boardDel, if_pos hk, hrest, tigersOf, List.filter_cons]
      by_cases hw : v = Player.tiger
      · simp [hw]
      · simp [hw]
    · rw [if_neg hk] at hv
      have ihh := ih hb.2 hv
      unfold tigersOf at ihh ⊢
      simp only [boardDel, if_neg hk, List.filter_cons]
      by_cases hw : w = Player.tiger
      · simp only [hw, beq_self_eq_true, if_true, List.length_cons]
        omega
      · have hwb : (w == Player.tiger) = false := by
          simp [hw]
        simp only [hwb, Bool.false_eq_true, if_false]
        omega

theorem tigersOf_boardSet_none (n : Nat) (p : Player) (b : Board)
    (h : boardGet b n = none) :
    (tigersOf (boardSet n p b)).length =
      (tigersOf b).length + (if p = Player.tiger then 1 else 0) := by
  rw [boardSet_of_none n p b h]
  unfold tigersOf
  rw [List.filter_append]
  by_cases hp : p = Player.tiger <;> simp [hp]

theorem getValidMoves_dest_none (id : Nat) (turn : Player) (b : Board)
    (placed : Nat) (t : Nat) (ht : t ∈ getValidMoves id turn b placed) :
    boardGet b t = none := by
  unfold getValidMoves at ht
  by_cases hplace : turn = Player.goat ∧ placed < GOATS_TOTAL
  · rw [if_pos hplace] at ht
    cases ht
  · rw [if_neg hplace] at ht
    by_cases htiger : turn = Player.tiger
    · simp only [if_pos htiger] at ht
      rcases List.mem_append.mp ht with hbase | hjump
      · exact Option.isNone_iff_eq_none.mp (List.mem_filter.mp hbase).2
      · obtain ⟨p, hp, hmem⟩ := List.mem_flatMap.mp hjump
        rcases List.mem_append.mp hmem with h1 | h2
        · by_cases hc : p.1 = id ∧ boardGet b p.2.1 = some Player.goat ∧
              boardGet b p.2.2 = none
          · rw [if_pos hc] at h1
            rw [List.mem_singleton.mp h1]
            exact hc.2.2
          · rw [if_neg hc] at h1
            cases h1
        · by_cases hc : p.2.2 = id ∧ boardGet b p.2.1 = some Player.goat ∧
              boardGet b p.1 = none
          · rw [if_pos hc] at h2
            rw [List.mem_singleton.mp h2]
            exact hc.2.2
          · rw [if_neg hc] at h2
            cases h2
    · simp only [if_neg htiger] at ht
      exact Option.isNone_iff_eq_none.mp (List.mem_filter.mp ht).2

theorem simulateMove_preserves (b : Board) (move : AIMove) (role : Player)
    (cap : Nat) (hnd : keysNodup b)
    (hsrc : ∀ f, move.src? = some f → boardGet b f = some role)
    (hdst : boardGet b move.dest = none) :
    keysNodup (simulateMove b move role cap).1 ∧
    (tigersOf (simulateMove b move role cap).1).length =
      (tigersOf b).length +
        (if move.src? = none ∧ role = Player.tiger then 1 else 0) := by
  cases hs : move.src? with
  | none =>
    have hb : (simulateMove b move role cap).1 = boardSet move.dest role b := by
      unfold simulateMove
      rw [hs]
    rw [hb, boardSet_of_none _ _ _ hdst]
    refine ⟨keysNodup_append_single b _ role hnd hdst, ?_⟩
    rw [← boardSet_of_none _ _ _ hdst, tigersOf_boardSet_none _ _ _ hdst]
    simp [hs]
  | some f =>
    have hpiece := hsrc f hs
    have hfd : move.dest ≠ f := by
      intro he
      rw [he, hpiece] at hdst
      cases hdst
    have hnd1 : keysNodup (boardDel f b) := keysNodup_boardDel f b hnd
    have hd1 : boardGet (boardDel f b) move.dest = none := by
      rw [boardGet_boardDel_ne move.dest f hfd]
      exact hdst
    have hcnt1 : (tigersOf b).length = (tigersOf (boardDel f b)).length +
        (if role = Player.tiger then 1 else 0) :=
      tigersOf_boardDel_some f role b hnd hpiece
    have hnd2 : keysNodup (boardSet move.dest role (boardDel f b)) := by
      rw [boardSet_of_none _ _ _ hd1]
      exact keysNodup_append_single _ _ _ hnd1 hd1
    have hcnt2 : (tigersOf (boardSet move.dest role (boardDel f b))).length =
        (tigersOf (boardDel f b)).length +
          (if role = Player.tiger then 1 else 0) :=
      tigersOf_boardSet_none _ _ _ hd1
    have hcnt2' : (tigersOf (boardSet move.dest role (boardDel f b))).length =
        (tigersOf b).length := by omega
    cases role with
    | goat =>
      have hb : (simulateMove b move Player.goat cap).1 =
          boardSet move.dest Player.goat (boardDel f b) := by
        unfold simulateMove
        rw [hs]
        simp
      rw [hb]
      exact ⟨hnd2, by rw [hcnt2']; simp [hs]⟩
    | tiger =>
      cases hfind : JUMP_PATHS.find? (fun q =>
          (q.1 == f && q.2.2 == move.dest) ||
            (q.2.2 == f && q.1 == move.dest)) with
      | none =>
        have hb : (simulateMove b move Player.tiger cap).1 =
            boardSet move.dest Player.tiger (boardDel f b) := by
          unfold simulateMove
          rw [hs]
          simp [hfind]
        rw [hb]
        exact ⟨hnd2, by rw [hcnt2']; simp [hs]⟩
      | some q =>
        by_cases hmid : boardGet
            (boardSet move.dest Player.tiger (boardDel f b)) q.2.1 =
              some Player.goat
        · have hb : (simulateMove b move Player.tiger cap).1 =
              boardDel q.2.1 (boardSet move.dest Player.tiger (boardDel f b)) := by
            unfold simulateMove
            rw [hs]
            simp [hfind, hmid]
          rw [hb]
          refine ⟨keysNodup_boardDel _ _ hnd2, ?_⟩
          have hdel := tigersOf_boardDel_some q.2.1 Player.goat _ hnd2 hmid
          have hdel2 : (tigersOf (boardSet move.dest Player.tiger
              (boardDel f b))).length = (tigersOf (boardDel q.2.1
              (boardSet move.dest Player.tiger (boardDel f b)))).length := by
            simpa using hdel
          have hite : (if ((some f : Option Nat) = none ∧
              Player.tiger = Player.tiger) then (1 : Nat) else 0) = 0 := by
            simp
          rw [hite]
          omega
        · have hb : (simulateMove b move Player.tiger cap).1 =
              boardSet move.dest Player.tiger (boardDel f b) := by
            unfold simulateMove
            rw [hs]
            simp [hfind, hmid]
          rw [hb]
          exact ⟨hnd2, by rw [hcnt2']; simp [hs]⟩

/-- C3: every game state reachable from the initial position by legal
moves has a board whose keys are pairwise distinct (each node holds at
most one occupant) and which carries exactly 4 tiger entries. -/
theorem claim_C3_reachable_invariant (s : GState) (h : Reachable s) :
    keysNodup s.board ∧ (tigersOf s.board).length = 4 := by
  induction h with
  | init =>
    constructor
    · show (initialState.board.map Prod.fst).Nodup
      decide
    · decide
  | @step s t hr hstep ih =>
    obtain ⟨hnd, hcount⟩ := ih
    cases hstep with
    | place node hturn hplaced hempty =>
      have hp := simulateMove_preserves s.board ⟨none, node⟩ s.turn
        s.goatsCaptured hnd (fun f hf => by cases hf) hempty
      refine ⟨hp.1, ?_⟩
      rw [hp.2]
      rw [hturn]
      simp [hcount]
    | slide src dst hpiece hdst =>
      have hdest := getValidMoves_dest_none src s.turn s.board
        s.goatsPlaced dst hdst
      have hp := simulateMove_preserves s.board ⟨some src, dst⟩ s.turn
        s.goatsCaptured hnd (fun f hf => by cases hf; exact hpiece) hdest
      refine ⟨hp.1, ?_⟩
      rw [hp.2]
      simp [hcount]

theorem claim_C3_witness :
    keysNodup initialState.board ∧ (tigersOf initialState.board).length = 4 :=
  claim_C3_reachable_invariant initialState Reachable.init

theorem argmax_foldl_some (f : Nat → ℚ) (l : List Nat) : ∀ (n : Nat) (s : ℚ),
    ∃ m r, l.foldl (argmaxStep f) (some (n, s)) = some (m, r) ∧ s ≤ r := by
  induction l with
  | nil => exact fun n s => ⟨n, s, rfl, le_refl s⟩
  | cons hd t ih =>
    intro n s
    simp only [List.foldl_cons]
    by_cases hc : s < f hd
    · have hstep : argmaxStep f (some (n, s)) hd = some (hd, f hd) := by
        simp [argmaxStep, hc]
      rw [hstep]
      obtain ⟨m, r, hm, hr⟩ := ih hd (f hd)
      exact ⟨m, r, hm, le_of_lt (lt_of_lt_of_le hc hr)⟩
    · have hstep : argmaxStep f (some (n, s)) hd = some (n, s) := by
        simp [argmaxStep, hc]
      rw [hstep]
      exact ih n s

theorem argmax_foldl_sound (f : Nat → ℚ) (l : List Nat) :
    ∀ (acc : Option (Nat × ℚ)) (p : Nat × ℚ),
    l.foldl (argmaxStep f) acc = some p →
    acc = some p ∨ (p.1 ∈ l ∧ p.2 = f p.1) := by
  induction l with
  | nil => exact fun acc p h => Or.inl h
  | cons hd t ih =>
    intro acc p h
    simp only [List.foldl_cons] at h
    rcases ih (argmaxStep f acc hd) p h with hacc | hmem
    · cases acc with
      | none =>
        simp only [argmaxStep] at hacc
        have hp : p = (hd, f hd) := (Option.some.inj hacc).symm
        right
        rw [hp]
        exact ⟨List.mem_cons_self hd t, rfl⟩
      | some best =>
        simp only [argmaxStep] at hacc
        by_cases hc : best.2 < f hd
        · rw [if_pos hc] at hacc
          have hp : p = (hd, f hd) := (Option.some.inj hacc).symm
          right
          rw [hp]
          exact ⟨List.mem_cons_self hd t, rfl⟩
        · rw [if_neg hc] at hacc
          exact Or.inl hacc
    · exact Or.inr ⟨List.mem_cons_of_mem hd hmem.1, hmem.2⟩

theorem argmax_foldl_ge (f : Nat → ℚ) (l : List Nat) :
    ∀ (acc : Option (Nat × ℚ)) (p : Nat × ℚ),
    l.foldl (argmaxStep f) acc = some p → ∀ x ∈ l, f x ≤ p.2 := by
  induction l with
  | nil => intro acc p _ x hx; cases hx
  | cons hd t ih =>
    intro acc p h x hx
    simp only [List.foldl_cons] at h
    rcases List.mem_cons.mp hx with rfl | hxt
    · have hstep : ∃ n1 s1, argmaxStep f acc x = some (n1, s1) ∧ f x ≤ s1 := by
        cases acc with
        | none => exact ⟨x, f x, rfl, le_refl _⟩
        | some best =>
          by_cases hc : best.2 < f x
          · exact ⟨x, f x, by simp [argmaxStep, hc], le_refl _⟩
          · exact ⟨best.1, best.2, by simp [argmaxStep, hc], le_of_not_lt hc⟩
      obtain ⟨n1, s1, hs, hfle⟩ := hstep
      rw [hs] at h
      obtain ⟨m2, r2, hm2, hr2⟩ := argmax_foldl_some f t n1 s1
      have hp : p = (m2, r2) := Option.some.inj (h.symm.trans hm2)
      rw [hp]
      exact le_trans hfle hr2
    · exact ih (argmaxStep f acc hd) p h x hxt

theorem placementScore_safe_nonneg (board : Board) (rand : Nat → ℚ) (n : Nat)
    (hd : immediateDanger board n = false) (h0 : 0 ≤ rand n) :
    0 ≤ placementScore board rand n := by
  unfold placementScore
  rw [if_neg (by simp [hd])]
  refine add_nonneg (add_nonneg (add_nonneg (add_nonneg ?_ ?_) ?_) ?_) h0
  · positivity
  · positivity
  · split <;> norm_num
  · split <;> norm_num

theorem placementScore_danger_lt (board : Board) (rand : Nat → ℚ) (n : Nat)
    (hd : immediateDanger board n = true) (hlt : rand n < 10) :
    placementScore board rand n < 0 := by
  unfold placementScore
  rw [if_pos hd]
  linarith

/-- C7: on the fresh board, for every admissible outcome of the bounded
random perturbations (each sample taken in the interval from 0 below 10,
as `Math.random() * 10` is), the node placed by `getBestPlacementGoat` is
never the middle of a jump path one of whose outer nodes holds a tiger
while the other is empty. -/
theorem claim_C7_placement_avoids_danger (rand : Nat → ℚ)
    (hr : ∀ n, 0 ≤ rand n ∧ rand n < 10) (m : AIMove)
    (hm : getBestPlacementGoat INITIAL_BOARD rand = some m) :
    immediateDanger INITIAL_BOARD m.dest = false := by
  simp only [getBestPlacementGoat] at hm
  cases hfold : (NODES.filter
      (fun id => (boardGet INITIAL_BOARD id).isNone)).foldl
      (argmaxStep (placementScore INITIAL_BOARD rand)) none with
  | none =>
    rw [hfold] at hm
    cases hm
  | some best =>
    rw [hfold] at hm
    have hmv : m = ⟨none, best.1⟩ := by
      simpa using hm.symm
    rcases argmax_foldl_sound (placementScore INITIAL_BOARD rand) _ none best
        hfold with hcontra | ⟨hmem, hval⟩
    · cases hcontra
    · have hge := argmax_foldl_ge (placementScore INITIAL_BOARD rand) _ none
        best hfold 1 (by decide)
      by_contra hcon
      have hdanger : immediateDanger INITIAL_BOARD best.1 = true := by
        cases hdm : immediateDanger INITIAL_BOARD best.1 with
        | true => rfl
        | false =>
          rw [hmv] at hcon
          exact absurd hdm hcon
      have hlt := placementScore_danger_lt INITIAL_BOARD rand best.1 hdanger
        (hr best.1).2
      have hsafe1 : immediateDanger INITIAL_BOARD 1 = false := by decide
      have hge1 : (0 : ℚ) ≤ placementScore INITIAL_BOARD rand 1 :=
        placementScore_safe_nonneg _ _ _ hsafe1 (hr 1).1
      have hchain : (0 : ℚ) ≤ placementScore INITIAL_BOARD rand best.1 := by
        rw [← hval]
        exact le_trans hge1 hge
      exact absurd hchain (not_le.mpr hlt)

theorem claim_C7_witness :
    immediateDanger INITIAL_BOARD
      (AIMove.dest ⟨none, 1⟩) = false :=
  claim_C7_placement_avoids_danger (fun _ => 0)
    (fun _ => ⟨le_refl 0, by norm_num⟩) ⟨none, 1⟩ (by
      norm_num [getBestPlacementGoat, argmaxStep, placementScore,
        immediateDanger, boardGet, INITIAL_BOARD, NODES, ADJACENCY,
        ADJACENCY_TABLE, tableGet, JUMP_PATHS, GOATS_TOTAL])

theorem maxLoop_noskip_eq (f : AIMove → Option Int → Option Int → Int)
    (prev : Option AIMove) (l : List AIMove) :
    ∀ acc alpha beta, maxLoop f prev false l acc alpha beta =
      maxLoop f none false l acc alpha beta := by
  induction l with
  | nil => intro acc alpha beta; rfl
  | cons m rest ih =>
    intro acc alpha beta
    simp only [maxLoop, Bool.false_and, Bool.false_eq_true, if_false]
    split
    · rfl
    · exact ih _ _ _

theorem minLoop_noskip_eq (f : AIMove → Option Int → Option Int → Int)
    (prev : Option AIMove) (l : List AIMove) :
    ∀ acc alpha beta, minLoop f prev false l acc alpha beta =
      minLoop f none false l acc alpha beta := by
  induction l with
  | nil => intro acc alpha beta; rfl
  | cons m rest ih =>
    intro acc alpha beta
    simp only [minLoop, Bool.false_and, Bool.false_eq_true, if_false]
    split
    · rfl
    · exact ih _ _ _

theorem maxLoop_skip_eq_filter (f : AIMove → Option Int → Option Int → Int)
    (p : AIMove) (l : List AIMove) :
    ∀ acc alpha beta, maxLoop f (some p) true l acc alpha beta =
      maxLoop f none false (l.filter (fun m => !isReverseMove m p))
        acc alpha beta := by
  induction l with
  | nil => intro acc alpha beta; rfl
  | cons m rest ih =>
    intro acc alpha beta
    by_cases hrev : isReverseMove m p = true
    · have hfil : (m :: rest).filter (fun m => !isReverseMove m p) =
          rest.filter (fun m => !isReverseMove m p) := by
        simp [List.filter_cons, hrev]
      rw [hfil]
      have hskip : maxLoop f (some p) true (m :: rest) acc alpha beta =
          maxLoop f (some p) true rest acc alpha beta := by
        simp only [maxLoop]
        rw [if_pos (by simp [isRevOf, hrev])]
      rw [hskip]
      exact ih _ _ _
    · have hfil : (m :: rest).filter (fun m => !isReverseMove m p) =
          m :: rest.filter (fun m => !isReverseMove m p) := by
        simp [List.filter_cons, hrev]
      rw [hfil]
      have hL : maxLoop f (some p) true (m :: rest) acc alpha beta =
          if pruneLe beta (amax alpha (f m alpha beta)) = true then
            amax acc (f m alpha beta)
          else maxLoop f (some p) true rest (amax acc (f m alpha beta))
            (amax alpha (f m alpha beta)) beta := by
        simp only [maxLoop]
        rw [if_neg (show ¬((true && isRevOf (some p) m) = true) by
          simp [isRevOf, hrev])]
      have hR : maxLoop f none false
          (m :: rest.filter (fun m => !isReverseMove m p)) acc alpha beta =
          if pruneLe beta (amax alpha (f m alpha beta)) = true then
            amax acc (f m alpha beta)
          else maxLoop f none false
            (rest.filter (fun m => !isReverseMove m p))
            (amax acc (f m alpha beta)) (amax alpha (f m alpha beta)) beta := by
        simp only [maxLoop]
        rw [if_neg (show ¬((false && isRevOf none m) = true) by simp)]
      rw [hL, hR]
      by_cases hp : pruneLe beta (amax alpha (f m alpha beta)) = true
      · rw [if_pos hp, if_pos hp]
      · rw [if_neg hp, if_neg hp]
        exact ih _ _ _

theorem minLoop_skip_eq_filter (f : AIMove → Option Int → Option Int → Int)
    (p : AIMove) (l : List AIMove) :
    ∀ acc alpha beta, minLoop f (some p) true l acc alpha beta =
      minLoop f none false (l.filter (fun m => !isReverseMove m p))
        acc alpha beta := by
  induction l with
  | nil => intro acc alpha beta; rfl
  | cons m rest ih =>
    intro acc alpha beta
    by_cases hrev : isReverseMove m p = true
    · have hfil : (m :: rest).filter (fun m => !isReverseMove m p) =
          rest.filter (fun m => !isReverseMove m p) := by
        simp [List.filter_cons, hrev]
      rw [hfil]
      have hskip : minLoop f (some p) true (m :: rest) acc alpha beta =
          minLoop f (some p) true rest acc alpha beta := by
        simp only [minLoop]
        rw [if_pos (by simp [isRevOf, hrev])]
      rw [hskip]
      exact ih _ _ _
    · have hfil : (m :: rest).filter (fun m => !isReverseMove m p) =
          m :: rest.filter (fun m => !isReverseMove m p) := by
        simp [List.filter_cons, hrev]
      rw [hfil]
      have hL : minLoop f (some p) true (m :: rest) acc alpha beta =
          if pruneLe (bmin beta (f m alpha beta)) alpha = true then
            bmin acc (f m alpha beta)
          else minLoop f (some p) true rest (bmin acc (f m alpha beta))
            alpha (bmin beta (f m alpha beta)) := by
        simp only [minLoop]
        rw [if_neg (show ¬((true && isRevOf (some p) m) = true) by
          simp [isRevOf, hrev])]
      have hR : minLoop f none false
          (m :: rest.filter (fun m => !isReverseMove m p)) acc alpha beta =
          if pruneLe (bmin beta (f m alpha beta)) alpha = true then
            bmin acc (f m alpha beta)
          else minLoop f none false
            (rest.filter (fun m => !isReverseMove m p))
            (bmin acc (f m alpha beta)) alpha (bmin beta (f m alpha beta)) := by
        simp only [minLoop]
        rw [if_neg (show ¬((false && isRevOf none m) = true) by simp)]
      rw [hL, hR]
      by_cases hp : pruneLe (bmin beta (f m alpha beta)) alpha = true
      · rw [if_pos hp, if_pos hp]
      · rw [if_neg hp, if_neg hp]
        exact ih _ _ _

/-- C8: the candidate loops of `minimax` (which receive
`decide (1 < moves.length)` as their skip gate, exactly the source test
`moves.length > 1`) behave as follows at every ply: when more than one
candidate exists, running the loop equals running the skip-free loop on
the list with every exact reverse of the previous move filtered out (the
reverse candidates are never evaluated); when at most one candidate
exists, the loop equals the skip-free loop on the unfiltered list, so a
lone reverse candidate is evaluated. -/
theorem claim_C8_anti_repetition_filter
    (f : AIMove → Option Int → Option Int → Int) (prev : AIMove)
    (l : List AIMove) (acc alpha beta : Option Int) :
    (maxLoop f (some prev) (decide (1 < l.length)) l acc alpha beta =
      if 1 < l.length then
        maxLoop f none false (l.filter (fun m => !isReverseMove m prev))
          acc alpha beta
      else maxLoop f none false l acc alpha beta) ∧
    (minLoop f (some prev) (decide (1 < l.length)) l acc alpha beta =
      if 1 < l.length then
        minLoop f none false (l.filter (fun m => !isReverseMove m prev))
          acc alpha beta
      else minLoop f none false l acc alpha beta) := by
  constructor
  · by_cases hl : 1 < l.length
    · rw [if_pos hl, decide_eq_true hl]
      exact maxLoop_skip_eq_filter f prev l acc alpha beta
    · rw [if_neg hl, decide_eq_false hl]
      exact maxLoop_noskip_eq f (some prev) l acc alpha beta
  · by_cases hl : 1 < l.length
    · rw [if_pos hl, decide_eq_true hl]
      exact minLoop_skip_eq_filter f prev l acc alpha beta
    · rw [if_neg hl, decide_eq_false hl]
      exact minLoop_noskip_eq f (some prev) l acc alpha beta

theorem mem_jumpPush (b : Board) (id : Nat) (p : Nat × Nat × Nat) (v : Nat)
    (hv : v ∈ (if p.1 = id ∧ boardGet b p.2.1 = some Player.goat ∧
        boardGet b p.2.2 = none then [p.2.2] else []) ++
      (if p.2.2 = id ∧ boardGet b p.2.1 = some Player.goat ∧
        boardGet b p.1 = none then [p.1] else [])) :
    (p.1 = id ∧ v = p.2.2) ∨ (p.2.2 = id ∧ v = p.1) := by
  rcases List.mem_append.mp hv with h1 | h2
  · by_cases hc : p.1 = id ∧ boardGet b p.2.1 = some Player.goat ∧
        boardGet b p.2.2 = none
    · rw [if_pos hc] at h1
      exact Or.inl ⟨hc.1, List.mem_singleton.mp h1⟩
    · rw [if_neg hc] at h1
      cases h1
  · by_cases hc : p.2.2 = id ∧ boardGet b p.2.1 = some Player.goat ∧
        boardGet b p.1 = none
    · rw [if_pos hc] at h2
      exact Or.inr ⟨hc.1, List.mem_singleton.mp h2⟩
    · rw [if_neg hc] at h2
      cases h2

theorem getValidMoves_nodup (id : Nat) (turn : Player) (b : Board)
    (placed : Nat) : (getValidMoves id turn b placed).Nodup := by
  unfold getValidMoves
  by_cases hplace : turn = Player.goat ∧ placed < GOATS_TOTAL
  · rw [if_pos hplace]
    exact List.nodup_nil
  · rw [if_neg hplace]
    by_cases htiger : turn = Player.tiger
    · simp only [if_pos htiger]
      refine List.Nodup.append ((adjacency_nodup id).filter _) ?_ ?_
      · refine List.nodup_flatMap.mpr ⟨?_, ?_⟩
        · intro p hp
          by_cases h1 : p.1 = id ∧ boardGet b p.2.1 = some Player.goat ∧
              boardGet b p.2.2 = none
          · by_cases h2 : p.2.2 = id ∧ boardGet b p.2.1 = some Player.goat ∧
                boardGet b p.1 = none
            · exact absurd (h1.1.trans h2.1.symm) (jumpPaths_middle_ne p hp).1
            · rw [if_pos h1, if_neg h2]
              simp
          · rw [if_neg h1]
            by_cases h2 : p.2.2 = id ∧ boardGet b p.2.1 = some Player.goat ∧
                boardGet b p.1 = none
            · rw [if_pos h2]
              simp
            · rw [if_neg h2]
              simp
        · refine jumpPaths_pairwise_ends.imp ?_
          intro p q hne v hvp hvq
          rcases mem_jumpPush b id p v hvp with ⟨hp1, hpv⟩ | ⟨hp1, hpv⟩ <;>
            rcases mem_jumpPush b id q v hvq with ⟨hq1, hqv⟩ | ⟨hq1, hqv⟩
          · exact hne (Or.inl ⟨hp1.trans hq1.symm, hpv.symm.trans hqv⟩)
          · exact hne (Or.inr ⟨hp1.trans hq1.symm, hpv.symm.trans hqv⟩)
          · exact hne (Or.inr ⟨hpv.symm.trans hqv, hp1.trans hq1.symm⟩)
          · exact hne (Or.inl ⟨hpv.symm.trans hqv, hp1.trans hq1.symm⟩)
      · intro v hvbase hvflat
        have hvadj : v ∈ ADJACENCY id := (List.mem_filter.mp hvbase).1
        obtain ⟨p, hp, hvp⟩ := List.mem_flatMap.mp hvflat
        rcases mem_jumpPush b id p v hvp with ⟨hp1, hpv⟩ | ⟨hp1, hpv⟩
        · rw [hpv, ← hp1] at hvadj
          exact (jumpPaths_ends_not_adjacent p hp).1 hvadj
        · rw [hpv, ← hp1] at hvadj
          exact (jumpPaths_ends_not_adjacent p hp).2 hvadj
    · simp only [if_neg htiger]
      exact (adjacency_nodup id).filter _

theorem getValidMoves_count_le_one (id : Nat) (turn : Player) (b : Board)
    (placed : Nat) (v : Nat) :
    (getValidMoves id turn b placed).count v ≤ 1 :=
  List.nodup_iff_count_le_one.mp (getValidMoves_nodup id turn b placed) v

theorem sum_map_le_one (g : Nat → Nat) (k : Nat) (l : List Nat)
    (hl : l.Nodup) (hg : ∀ x, x ≠ k → g x = 0) (hk : g k ≤ 1) :
    (l.map g).sum ≤ 1 := by
  induction l with
  | nil => simp
  | cons hd t ih =>
    simp only [List.nodup_cons] at hl
    simp only [List.map_cons, List.sum_cons]
    by_cases hhd : hd = k
    · subst hhd
      have hzero : (t.map g).sum = 0 := by
        apply List.sum_eq_zero
        intro x hx
        obtain ⟨y, hy, rfl⟩ := List.mem_map.mp hx
        apply hg
        intro hyk
        rw [hyk] at hy
        exact hl.1 hy
      omega
    · rw [hg hd hhd]
      have := ih hl.2
      omega

theorem countP_rev_le_one (b : Board) (turn : Player) (placed : Nat)
    (prev : Option AIMove) (hnd : keysNodup b) :
    (getAllPossibleMoves b turn placed).countP
      (fun m => isRevOf prev m) ≤ 1 := by
  cases prev with
  | none =>
    rw [List.countP_eq_zero.mpr]
    · omega
    · intro m _
      simp [isRevOf]
  | some pm =>
    cases hpf : pm.src? with
    | none =>
      rw [List.countP_eq_zero.mpr]
      · omega
      · intro m _
        cases hms : m.src? <;> simp [isRevOf, isReverseMove, hpf, hms]
    | some pf =>
      unfold getAllPossibleMoves
      by_cases hplace : turn = Player.goat ∧ placed < GOATS_TOTAL
      · rw [if_pos hplace]
        rw [List.countP_eq_zero.mpr]
        · omega
        · intro m hm
          obtain ⟨idn, hid, rfl⟩ := List.mem_map.mp hm
          simp [isRevOf, isReverseMove]
      · rw [if_neg hplace]
        rw [List.countP_flatMap]
        apply sum_map_le_one _ pm.dest _
          (by
            apply List.Nodup.sublist ((List.filter_sublist _).map Prod.fst)
            exact hnd)
        · intro x hx
          show List.countP (fun m => isRevOf (some pm) m)
            ((getValidMoves x turn b placed).map
              (fun t => ⟨some x, t⟩)) = 0
          rw [List.countP_map]
          rw [List.countP_eq_zero.mpr]
          intro t _
          simp [isRevOf, isReverseMove, hpf, hx]
        · show List.countP (fun m => isRevOf (some pm) m)
            ((getValidMoves pm.dest turn b placed).map
              (fun t => ⟨some pm.dest, t⟩)) ≤ 1
          rw [List.countP_map]
          have hpred : ((fun m => isRevOf (some pm) m) ∘
              (fun t => (⟨some pm.dest, t⟩ : AIMove))) =
              (fun t => t == pf) := by
            funext t
            simp [Function.comp, isRevOf, isReverseMove, hpf]
          rw [hpred]
          exact getValidMoves_count_le_one pm.dest turn b placed pf

theorem maxLoop_some_acc (f : AIMove → Option Int → Option Int → Int)
    (prev : Option AIMove) (g : Bool) (l : List AIMove) :
    ∀ (x : Int) (alpha beta : Option Int),
    maxLoop f prev g l (some x) alpha beta ≠ none := by
  induction l with
  | nil =>
    intro x alpha beta
    simp [maxLoop]
  | cons m rest ih =>
    intro x alpha beta
    simp only [maxLoop]
    by_cases hskip : (g && isRevOf prev m) = true
    · rw [if_pos hskip]
      exact ih x alpha beta
    · rw [if_neg hskip]
      by_cases hp : pruneLe beta (amax alpha (f m alpha beta)) = true
      · rw [if_pos hp]
        simp [amax]
      · rw [if_neg hp]
        exact ih (max x (f m alpha beta)) _ _

theorem minLoop_some_acc (f : AIMove → Option Int → Option Int → Int)
    (prev : Option AIMove) (g : Bool) (l : List AIMove) :
    ∀ (x : Int) (alpha beta : Option Int),
    minLoop f prev g l (some x) alpha beta ≠ none := by
  induction l with
  | nil =>
    intro x alpha beta
    simp [minLoop]
  | cons m rest ih =>
    intro x alpha beta
    simp only [minLoop]
    by_cases hskip : (g && isRevOf prev m) = true
    · rw [if_pos hskip]
      exact ih x alpha beta
    · rw [if_neg hskip]
      by_cases hp : pruneLe (bmin beta (f m alpha beta)) alpha = true
      · rw [if_pos hp]
        simp [bmin]
      · rw [if_neg hp]
        exact ih (min x (f m alpha beta)) _ _

theorem maxLoop_ne_none (f : AIMove → Option Int → Option Int → Int)
    (prev : Option AIMove) (g : Bool) (l : List AIMove) :
    ∀ (alpha beta : Option Int),
    (∃ m ∈ l, (g && isRevOf prev m) = false) →
    maxLoop f prev g l none alpha beta ≠ none := by
  induction l with
  | nil =>
    rintro alpha beta ⟨m, hm, -⟩
    cases hm
  | cons m rest ih =>
    rintro alpha beta ⟨w, hw, hwp⟩
    simp only [maxLoop]
    by_cases hskip : (g && isRevOf prev m) = true
    · rw [if_pos hskip]
      apply ih
      rcases List.mem_cons.mp hw with rfl | hwt
      · rw [hwp] at hskip
        cases hskip
      · exact ⟨w, hwt, hwp⟩
    · rw [if_neg hskip]
      by_cases hp : pruneLe beta (amax alpha (f m alpha beta)) = true
      · rw [if_pos hp]
        simp [amax]
      · rw [if_neg hp]
        exact maxLoop_some_acc f prev g rest (f m alpha beta) _ _

theorem minLoop_ne_none (f : AIMove → Option Int → Option Int → Int)
    (prev : Option AIMove) (g : Bool) (l : List AIMove) :
    ∀ (alpha beta : Option Int),
    (∃ m ∈ l, (g && isRevOf prev m) = false) →
    minLoop f prev g l none alpha beta ≠ none := by
  induction l with
  | nil =>
    rintro alpha beta ⟨m, hm, -⟩
    cases hm
  | cons m rest ih =>
    rintro alpha beta ⟨w, hw, hwp⟩
    simp only [minLoop]
    by_cases hskip : (g && isRevOf prev m) = true
    · rw [if_pos hskip]
      apply ih
      rcases List.mem_cons.mp hw with rfl | hwt
      · rw [hwp] at hskip
        cases hskip
      · exact ⟨w, hwt, hwp⟩
    · rw [if_neg hskip]
      by_cases hp : pruneLe (bmin beta (f m alpha beta)) alpha = true
      · rw [if_pos hp]
        simp [bmin]
      · rw [if_neg hp]
        exact minLoop_some_acc f prev g rest (f m alpha beta) _ _

/-- C10: with a well-formed board (pairwise-distinct keys, the JavaScript
object invariant) and a non-empty candidate list at a minimax ply, the
sorted candidate list contains at most one exact reverse of the previous
move, and both ply loops, gated exactly as in `minimax` by
`decide (1 < moves.length)`, evaluate at least one candidate — their
result is never `none`, so the defensive fallbacks `-10000` (maximizing)
and `10000` (minimizing) are unreachable. -/
theorem claim_C10_fallbacks_unreachable
    (f : AIMove → Option Int → Option Int → Int) (board : Board)
    (turn : Player) (goatsPlaced : Nat) (prev : Option AIMove)
    (alpha beta : Option Int) (hnd : keysNodup board)
    (hne : getAllPossibleMoves board turn goatsPlaced ≠ []) :
    ((sortMovesForPruning (getAllPossibleMoves board turn goatsPlaced)
        board turn).countP (fun m => isRevOf prev m) ≤ 1) ∧
    maxLoop f prev
      (decide (1 < (sortMovesForPruning
        (getAllPossibleMoves board turn goatsPlaced) board turn).length))
      (sortMovesForPruning (getAllPossibleMoves board turn goatsPlaced)
        board turn) none alpha beta ≠ none ∧
    minLoop f prev
      (decide (1 < (sortMovesForPruning
        (getAllPossibleMoves board turn goatsPlaced) board turn).length))
      (sortMovesForPruning (getAllPossibleMoves board turn goatsPlaced)
        board turn) none alpha beta ≠ none := by
  have hperm : List.Perm (sortMovesForPruning
      (getAllPossibleMoves board turn goatsPlaced) board turn)
      (getAllPossibleMoves board turn goatsPlaced) :=
    List.mergeSort_perm _ _
  have hcount : (sortMovesForPruning
      (getAllPossibleMoves board turn goatsPlaced) board turn).countP
        (fun m => isRevOf prev m) ≤ 1 := by
    rw [hperm.countP_eq]
    exact countP_rev_le_one board turn goatsPlaced prev hnd
  have hlen : (sortMovesForPruning
      (getAllPossibleMoves board turn goatsPlaced) board turn).length =
      (getAllPossibleMoves board turn goatsPlaced).length :=
    hperm.length_eq
  have hnonempty : sortMovesForPruning
      (getAllPossibleMoves board turn goatsPlaced) board turn ≠ [] := by
    intro hcontra
    apply hne
    have := hperm.length_eq
    rw [hcontra] at this
    exact List.length_eq_zero.mp this.symm
  have hexists : ∃ m ∈ sortMovesForPruning
      (getAllPossibleMoves board turn goatsPlaced) board turn,
      ((decide (1 < (sortMovesForPruning
        (getAllPossibleMoves board turn goatsPlaced) board turn).length))
        && isRevOf prev m) = false := by
    by_cases hg : 1 < (sortMovesForPruning
        (getAllPossibleMoves board turn goatsPlaced) board turn).length
    · by_contra hnone
      push_neg at hnone
      have hall : ∀ m ∈ sortMovesForPruning
          (getAllPossibleMoves board turn goatsPlaced) board turn,
          (fun m => isRevOf prev m) m = true := by
        intro m hm
        have h1 := hnone m hm
        rw [decide_eq_true hg] at h1
        simp only [Bool.true_and] at h1
        cases hrev : isRevOf prev m
        · exact absurd hrev h1
        · exact hrev
      have hlenc : (sortMovesForPruning
          (getAllPossibleMoves board turn goatsPlaced) board turn).countP
            (fun m => isRevOf prev m) = (sortMovesForPruning
          (getAllPossibleMoves board turn goatsPlaced) board turn).length :=
        List.countP_eq_length.mpr hall
      omega
    · obtain ⟨m, hm⟩ := List.exists_mem_of_ne_nil _ hnonempty
      refine ⟨m, hm, ?_⟩
      rw [decide_eq_false hg]
      simp
  exact ⟨hcount,
    maxLoop_ne_none f prev _ _ alpha beta hexists,
    minLoop_ne_none f prev _ _ alpha beta hexists⟩

theorem claim_C10_witness :
    ((sortMovesForPruning (getAllPossibleMoves INITIAL_BOARD Player.tiger 0)
        INITIAL_BOARD Player.tiger).countP
        (fun m => isRevOf none m) ≤ 1) ∧
    maxLoop (fun _ _ _ => 0) none
      (decide (1 < (sortMovesForPruning
        (getAllPossibleMoves INITIAL_BOARD Player.tiger 0) INITIAL_BOARD
        Player.tiger).length))
      (sortMovesForPruning (getAllPossibleMoves INITIAL_BOARD Player.tiger 0)
        INITIAL_BOARD Player.tiger) none none none ≠ none ∧
    minLoop (fun _ _ _ => 0) none
      (decide (1 < (sortMovesForPruning
        (getAllPossibleMoves INITIAL_BOARD Player.tiger 0) INITIAL_BOARD
        Player.tiger).length))
      (sortMovesForPruning (getAllPossibleMoves INITIAL_BOARD Player.tiger 0)
        INITIAL_BOARD Player.tiger) none none none ≠ none :=
  claim_C10_fallbacks_unreachable (fun _ _ _ => 0) INITIAL_BOARD Player.tiger
    0 none none none (by unfold keysNodup; decide) (by decide)
